import Mathlib

/-!
# Verification of `goqueue` (`queue.go`)

Shallow embedding of the ring-buffer queue from `queue.go` and proofs of its
specification.  The Go struct `Queue` holds a backing slice `buf` of
`interface{}` values (modelled as `Option α`, with `none` for Go's `nil`),
cursors `head`/`tail`, the element counter `count` (Go `int`s that stay
non-negative, modelled as `Nat`), and the configured bound `max_len`
(modelled as `Int`, since the Go code compares it against `count` and a
caller may pass a negative value).  The mutex and the notification channel
of the Go code have no effect on the sequential data behaviour and are not
part of the state; panics are modelled as `Except.error` results that leave
the state unchanged (the Go code checks the failing condition before any
mutation).
-/

namespace GoQueue

/-- `minQueueLen` from `queue.go`: the minimum ring-buffer allocation. -/
def minQueueLen : Nat := 16

/-- The Go struct `Queue` (fields `buf`, `head`, `tail`, `count`, `max_len`;
the mutex `m` and channel `c` carry no sequential data state). -/
structure Queue (α : Type) where
  buf : List (Option α)
  head : Nat
  tail : Nat
  count : Nat
  max_len : Int
deriving DecidableEq

variable {α : Type}

/-- `New(max_len)`: fresh queue with a `minQueueLen` buffer of nils and
zeroed cursors (Go zero-initializes `head`, `tail`, `count`). -/
def New (α : Type) (max_len : Int) : Queue α :=
  { buf := List.replicate minQueueLen none
    head := 0
    tail := 0
    count := 0
    max_len := max_len }

/-- `Length()`: returns `q.count`. -/
def Queue.Length (q : Queue α) : Nat :=
  q.count

/-- The Go built-in `copy(dst, src)`: overwrites the first
`min (len dst) (len src)` entries of `dst` with those of `src`, keeping the
rest of `dst`. -/
def goCopy (dst src : List (Option α)) : List (Option α) :=
  src.take dst.length ++ dst.drop (min dst.length src.length)

/-- Go slicing `l[a:b]`. -/
def goSlice (l : List (Option α)) (a b : Nat) : List (Option α) :=
  (l.drop a).take (b - a)

/-- `resize()`: reallocate to `count*2` slots, copying the live elements in
logical order (one `copy` when the live region is contiguous, two when it
wraps), then re-linearize the cursors. -/
def Queue.resize (q : Queue α) : Queue α :=
  let newBuf : List (Option α) := List.replicate (q.count * 2) none
  let newBuf :=
    if q.head < q.tail then
      goCopy newBuf (goSlice q.buf q.head q.tail)
    else
      let n := min newBuf.length (q.buf.drop q.head).length
      let b1 := goCopy newBuf (q.buf.drop q.head)
      b1.take n ++ goCopy (b1.drop n) (q.buf.take q.tail)
  { q with buf := newBuf, head := 0, tail := q.count }

/-- `Add(elem)`: reject when `count >= max_len`; grow when the buffer is
full; then store at `tail`, advance `tail` modulo the buffer length and bump
`count`.  (The wake-up goroutine `q.c <- 1` does not touch the data state.) -/
def Queue.Add (q : Queue α) (elem : α) : Queue α :=
  if q.max_len ≤ (q.count : Int) then q
  else
    let q1 := if q.count = q.buf.length then q.resize else q
    let buf := q1.buf.set q1.tail (some elem)
    { q1 with
      buf := buf
      tail := (q1.tail + 1) % buf.length
      count := q1.count + 1 }

/-- The failure conditions surfaced by panics in `queue.go`. -/
inductive QErr where
  | emptyQueue
  | indexOutOfRange
deriving DecidableEq

/-- `Peek()`: head element, or the empty-queue failure when `count <= 0`. -/
def Queue.Peek (q : Queue α) : Except QErr (Option α) :=
  if q.count ≤ 0 then .error .emptyQueue
  else .ok (q.buf.getD q.head none)

/-- `Get(i)`: element at logical index `i`, read at
`buf[(head+i) mod len buf]`; fails when `i < 0` or `i >= count`. -/
def Queue.Get (q : Queue α) (i : Int) : Except QErr (Option α) :=
  if i < 0 ∨ (q.count : Int) ≤ i then .error .indexOutOfRange
  else .ok (q.buf.getD ((q.head + i.toNat) % q.buf.length) none)

/-- `Remove()`: fail when empty; otherwise nil out the head slot, advance
`head` modulo the buffer length, decrement `count`, and shrink when the
buffer exceeds `minQueueLen` and occupancy dropped to a quarter. -/
def Queue.Remove (q : Queue α) : Except QErr (Queue α) :=
  if q.count ≤ 0 then .error .emptyQueue
  else
    let buf := q.buf.set q.head none
    let q1 : Queue α :=
      { q with
        buf := buf
        head := (q.head + 1) % buf.length
        count := q.count - 1 }
    if minQueueLen < q1.buf.length ∧ q1.count * 4 = q1.buf.length then
      .ok q1.resize
    else
      .ok q1

/-- `PeekAndRemove()`: read the head element, then perform exactly the
removal and shrink steps of `Remove`, returning the element read. -/
def Queue.PeekAndRemove (q : Queue α) : Except QErr (Option α × Queue α) :=
  if q.count ≤ 0 then .error .emptyQueue
  else
    let h := q.buf.getD q.head none
    let buf := q.buf.set q.head none
    let q1 : Queue α :=
      { q with
        buf := buf
        head := (q.head + 1) % buf.length
        count := q.count - 1 }
    if minQueueLen < q1.buf.length ∧ q1.count * 4 = q1.buf.length then
      .ok (h, q1.resize)
    else
      .ok (h, q1)

/-- `Length()` with its (identity) state effect made explicit: the body of
the Go function reads `q.count` and writes no field. -/
def Queue.LengthS (q : Queue α) : Nat × Queue α :=
  (q.count, q)

/-- `Peek()` with its (identity) state effect made explicit: the body of the
Go function only reads `q.count` and `q.buf[q.head]`. -/
def Queue.PeekS (q : Queue α) : Except QErr (Option α) × Queue α :=
  if q.count ≤ 0 then (.error .emptyQueue, q)
  else (.ok (q.buf.getD q.head none), q)

/-- `Get(i)` with its (identity) state effect made explicit: the body of the
Go function only reads fields. -/
def Queue.GetS (q : Queue α) (i : Int) : Except QErr (Option α) × Queue α :=
  if i < 0 ∨ (q.count : Int) ≤ i then (.error .indexOutOfRange, q)
  else (.ok (q.buf.getD ((q.head + i.toNat) % q.buf.length) none), q)

/-- The mutating operations, for stating properties of operation
sequences. -/
inductive Op (α : Type) where
  | add : α → Op α
  | remove : Op α
  | peekAndRemove : Op α
deriving DecidableEq

/-- One mutating call.  A failing `Remove`/`PeekAndRemove` leaves the state
unchanged (the Go code panics before mutating anything). -/
def Queue.step (q : Queue α) : Op α → Queue α
  | .add x => q.Add x
  | .remove =>
    match q.Remove with
    | .ok q1 => q1
    | .error _ => q
  | .peekAndRemove =>
    match q.PeekAndRemove with
    | .ok (_, q1) => q1
    | .error _ => q

/-- A sequence of mutating calls. -/
def Queue.run (q : Queue α) : List (Op α) → Queue α
  | [] => q
  | op :: ops => (q.step op).run ops

/-- The logical contents of the queue, oldest first: `count` live slots
starting at `head`, wrapping around the buffer. -/
def Queue.toList (q : Queue α) : List (Option α) :=
  (q.buf.rotate q.head).take q.count

/-- Specification-level model of one call: a FIFO list bounded by the
capacity (append at the back when below the bound, drop at the front). -/
def absStep (maxLen : Int) (l : List (Option α)) : Op α → List (Option α)
  | .add x => if maxLen ≤ (l.length : Int) then l else l ++ [some x]
  | .remove => l.drop 1
  | .peekAndRemove => l.drop 1

/-- Specification-level model of a call sequence. -/
def absRun (maxLen : Int) (l : List (Option α)) : List (Op α) → List (Option α)
  | [] => l
  | op :: ops => absRun maxLen (absStep maxLen l op) ops

/-- The structural invariant of reachable queue states: the buffer length is
`minQueueLen` times a power of two, `count` fits in the buffer, `head` is in
range, and `tail` sits `count` slots past `head` (modulo the length). -/
structure Inv (q : Queue α) : Prop where
  hpow : ∃ k : Nat, q.buf.length = minQueueLen * 2 ^ k
  hcount : q.count ≤ q.buf.length
  hhead : q.head < q.buf.length
  htail : q.tail = (q.head + q.count) % q.buf.length


theorem minQueueLen_pos : 0 < minQueueLen := by decide

theorem Inv.hlen {q : Queue α} (h : Inv q) : minQueueLen ≤ q.buf.length := by
  obtain ⟨k, hk⟩ := h.hpow
  rw [hk]
  calc minQueueLen = minQueueLen * 1 := (Nat.mul_one _).symm
    _ ≤ minQueueLen * 2 ^ k := Nat.mul_le_mul_left _ Nat.one_le_two_pow

theorem Inv.hlen_pos {q : Queue α} (h : Inv q) : 0 < q.buf.length :=
  lt_of_lt_of_le minQueueLen_pos h.hlen

theorem toList_length {q : Queue α} (h : Inv q) : q.toList.length = q.count := by
  simp [Queue.toList, List.length_take, List.length_rotate, Nat.min_eq_left h.hcount]

theorem toList_getD {q : Queue α} (h : Inv q) (i : Nat) (hi : i < q.count) :
    q.toList.getD i none = q.buf.getD ((q.head + i) % q.buf.length) none := by
  have h1 : i < q.toList.length := by rw [toList_length h]; exact hi
  have h2 : (q.head + i) % q.buf.length < q.buf.length := Nat.mod_lt _ h.hlen_pos
  rw [List.getD_eq_getElem _ _ h1, List.getD_eq_getElem _ _ h2]
  unfold Queue.toList at h1 ⊢
  rw [List.getElem_take, List.getElem_rotate]
  congr 1
  rw [Nat.add_comm]


theorem set_push_toList (buf : List (Option α)) (head count : Nat) (x : α)
    (hh : head < buf.length) (hc : count < buf.length) :
    ((buf.set ((head + count) % buf.length) (some x)).rotate head).take (count + 1)
      = (buf.rotate head).take count ++ [some x] := by
  have hlen0 : 0 < buf.length := Nat.lt_of_le_of_lt (Nat.zero_le _) hh
  have hL : (((buf.set ((head + count) % buf.length) (some x)).rotate head).take
      (count + 1)).length = count + 1 := by
    simp only [List.length_take, List.length_rotate, List.length_set]
    omega
  have hR : ((buf.rotate head).take count ++ [some x]).length = count + 1 := by
    simp only [List.length_append, List.length_take, List.length_rotate,
      List.length_cons, List.length_nil]
    omega
  have hlenT : ((buf.rotate head).take count).length = count := by
    simp only [List.length_take, List.length_rotate]
    omega
  apply List.ext_getElem (by rw [hL, hR])
  intro j hj1 hj2
  rw [hL] at hj1
  rw [List.getElem_take, List.getElem_rotate]
  simp only [List.length_set]
  rw [List.getElem_set]
  rcases Nat.lt_or_ge j count with hjc | hjc
  · have hne : ¬ (head + count) % buf.length = (j + head) % buf.length := by
      intro he
      have hme : count ≡ j [MOD buf.length] := by
        apply Nat.ModEq.add_left_cancel' head
        show (head + count) % buf.length = (head + j) % buf.length
        rw [he, Nat.add_comm]
      have hcj : count % buf.length = j % buf.length := hme
      rw [Nat.mod_eq_of_lt hc, Nat.mod_eq_of_lt (lt_trans hjc hc)] at hcj
      omega
    rw [if_neg hne]
    rw [List.getElem_append_left (by rw [hlenT]; exact hjc)]
    rw [List.getElem_take, List.getElem_rotate]
  · have hj : j = count := by omega
    rw [if_pos (by rw [hj, Nat.add_comm])]
    rw [List.getElem_append_right (by rw [hlenT]; omega)]
    simp [hlenT, hj]

theorem set_pop_toList (buf : List (Option α)) (head count : Nat)
    (hh : head < buf.length) (hc : count ≤ buf.length) (hc0 : 0 < count) :
    ((buf.set head none).rotate ((head + 1) % buf.length)).take (count - 1)
      = ((buf.rotate head).take count).drop 1 := by
  have hlen0 : 0 < buf.length := Nat.lt_of_le_of_lt (Nat.zero_le _) hh
  have hL : (((buf.set head none).rotate ((head + 1) % buf.length)).take
      (count - 1)).length = count - 1 := by
    simp only [List.length_take, List.length_rotate, List.length_set]
    omega
  have hR : (((buf.rotate head).take count).drop 1).length = count - 1 := by
    simp only [List.length_drop, List.length_take, List.length_rotate]
    omega
  apply List.ext_getElem (by rw [hL, hR])
  intro j hj1 hj2
  rw [hL] at hj1
  rw [List.getElem_take, List.getElem_rotate]
  simp only [List.length_set]
  rw [List.getElem_set]
  have hidx : (j + (head + 1) % buf.length) % buf.length
      = (1 + j + head) % buf.length := by
    rw [Nat.add_comm j ((head + 1) % buf.length), Nat.mod_add_mod]
    congr 1
    omega
  simp only [hidx]
  have hne : ¬ head = (1 + j + head) % buf.length := by
    intro he
    have hme : (1 + j) ≡ 0 [MOD buf.length] := by
      apply Nat.ModEq.add_right_cancel' head
      show (1 + j + head) % buf.length = (0 + head) % buf.length
      rw [← he, Nat.zero_add, Nat.mod_eq_of_lt hh]
    have h0 : (1 + j) % buf.length = 0 % buf.length := hme
    rw [Nat.mod_eq_of_lt (by omega), Nat.zero_mod] at h0
    omega
  rw [if_neg hne]
  rw [List.getElem_drop, List.getElem_take, List.getElem_rotate]

theorem resize_buf {q : Queue α} (h : Inv q) (hc : 0 < q.count) :
    (q.resize).buf = q.toList ++ List.replicate q.count none := by
  have hlen0 : 0 < q.buf.length := h.hlen_pos
  have hh := h.hhead
  have hcnt := h.hcount
  by_cases hbr : q.head < q.tail
  · -- the live region is contiguous: one copy
    have hres : (q.resize).buf
        = goCopy (List.replicate (q.count * 2) none) (goSlice q.buf q.head q.tail) := by
      simp only [Queue.resize, if_pos hbr]
    have hnw : q.head + q.count < q.buf.length := by
      rcases Nat.lt_or_ge (q.head + q.count) q.buf.length with hlt | hge
      · exact hlt
      · exfalso
        have ht : q.tail = q.head + q.count - q.buf.length := by
          rw [h.htail, Nat.mod_eq_sub_mod hge, Nat.mod_eq_of_lt (by omega)]
        omega
    have ht : q.tail = q.head + q.count := by rw [h.htail, Nat.mod_eq_of_lt hnw]
    have hsrclen : ((q.buf.drop q.head).take q.count).length = q.count := by
      simp only [List.length_take, List.length_drop]
      omega
    have htoList : q.toList = (q.buf.drop q.head).take q.count := by
      unfold Queue.toList
      rw [List.rotate_eq_drop_append_take (le_of_lt h.hhead),
        List.take_append_eq_append_take]
      have h0 : q.count - (q.buf.drop q.head).length = 0 := by
        simp only [List.length_drop]
        omega
      rw [h0, List.take_zero, List.append_nil]
    rw [hres, htoList]
    unfold goCopy goSlice
    rw [ht, Nat.add_sub_cancel_left]
    rw [List.take_of_length_le (by rw [hsrclen, List.length_replicate]; omega)]
    rw [List.length_replicate, hsrclen, List.drop_replicate]
    have h2 : q.count * 2 - min (q.count * 2) q.count = q.count := by omega
    rw [h2]
  · -- the live region wraps: two copies
    have hwrap : q.buf.length ≤ q.head + q.count := by
      rcases Nat.lt_or_ge (q.head + q.count) q.buf.length with hlt | hge
      · exfalso
        have ht : q.tail = q.head + q.count := by rw [h.htail, Nat.mod_eq_of_lt hlt]
        omega
      · exact hge
    have ht : q.tail = q.head + q.count - q.buf.length := by
      rw [h.htail, Nat.mod_eq_sub_mod hwrap, Nat.mod_eq_of_lt (by omega)]
    have htl : q.tail ≤ q.head := by omega
    have hres : (q.resize).buf
        = (goCopy (List.replicate (q.count * 2) none) (q.buf.drop q.head)).take
            (min (List.replicate (q.count * 2) (none : Option α)).length
              (q.buf.drop q.head).length)
          ++ goCopy
            ((goCopy (List.replicate (q.count * 2) none) (q.buf.drop q.head)).drop
              (min (List.replicate (q.count * 2) (none : Option α)).length
                (q.buf.drop q.head).length))
            (q.buf.take q.tail) := by
      simp only [Queue.resize, if_neg hbr]
    have hs1len : (q.buf.drop q.head).length = q.buf.length - q.head := List.length_drop ..
    have hs2len : (q.buf.take q.tail).length = q.tail := by
      simp only [List.length_take]
      omega
    have hn : min (List.replicate (q.count * 2) (none : Option α)).length
        (q.buf.drop q.head).length = q.buf.length - q.head := by
      rw [List.length_replicate, hs1len]
      omega
    have hb1 : goCopy (List.replicate (q.count * 2) none) (q.buf.drop q.head)
        = q.buf.drop q.head
          ++ List.replicate (q.count * 2 - (q.buf.length - q.head)) none := by
      unfold goCopy
      rw [List.take_of_length_le (by rw [hs1len, List.length_replicate]; omega)]
      rw [List.length_replicate, hs1len, List.drop_replicate]
      have h5 : q.count * 2 ⊓ (q.buf.length - q.head) = q.buf.length - q.head := by
        omega
      rw [h5]
    have hb2 : goCopy (List.replicate (q.count * 2 - (q.buf.length - q.head)) none)
        (q.buf.take q.tail)
        = q.buf.take q.tail ++ List.replicate q.count none := by
      unfold goCopy
      rw [List.take_of_length_le (by rw [hs2len, List.length_replicate]; omega)]
      rw [List.length_replicate, hs2len]
      rw [List.drop_replicate]
      have h3 : q.count * 2 - (q.buf.length - q.head)
          - min (q.count * 2 - (q.buf.length - q.head)) q.tail = q.count := by omega
      rw [h3]
    have htoList : q.toList = q.buf.drop q.head ++ q.buf.take q.tail := by
      unfold Queue.toList
      rw [List.rotate_eq_drop_append_take (le_of_lt h.hhead),
        List.take_append_eq_append_take]
      rw [List.take_of_length_le (by rw [hs1len]; omega)]
      rw [List.take_take, hs1len]
      have h4 : min (q.count - (q.buf.length - q.head)) q.head = q.tail := by omega
      rw [h4]
    rw [hres, hn, hb1]
    rw [List.take_left' hs1len, List.drop_left' hs1len, hb2, htoList, List.append_assoc]

theorem resize_head (q : Queue α) : (q.resize).head = 0 := rfl

theorem resize_tail (q : Queue α) : (q.resize).tail = q.count := rfl

theorem resize_count (q : Queue α) : (q.resize).count = q.count := rfl

theorem resize_max_len (q : Queue α) : (q.resize).max_len = q.max_len := rfl

theorem resize_buf_length {q : Queue α} (h : Inv q) (hc : 0 < q.count) :
    (q.resize).buf.length = q.count * 2 := by
  rw [resize_buf h hc]
  simp only [List.length_append, toList_length h, List.length_replicate]
  omega

theorem resize_toList {q : Queue α} (h : Inv q) (hc : 0 < q.count) :
    (q.resize).toList = q.toList := by
  show ((q.resize).buf.rotate (q.resize).head).take (q.resize).count = q.toList
  rw [resize_head, resize_count, List.rotate_zero, resize_buf h hc]
  exact List.take_left' (toList_length h)

theorem Add_eq (q : Queue α) (x : α) (hne : ¬ q.max_len ≤ (q.count : Int)) :
    q.Add x = (fun q1 : Queue α =>
      { q1 with
        buf := q1.buf.set q1.tail (some x)
        tail := (q1.tail + 1) % (q1.buf.set q1.tail (some x)).length
        count := q1.count + 1 })
      (if q.count = q.buf.length then q.resize else q) := by
  unfold Queue.Add
  rw [if_neg hne]

theorem insert_spec {q1 : Queue α} (x : α)
    (hpow : ∃ k, q1.buf.length = minQueueLen * 2 ^ k)
    (hh : q1.head < q1.buf.length) (hlt : q1.count < q1.buf.length)
    (ht : q1.tail = (q1.head + q1.count) % q1.buf.length) :
    Inv { q1 with
        buf := q1.buf.set q1.tail (some x)
        tail := (q1.tail + 1) % (q1.buf.set q1.tail (some x)).length
        count := q1.count + 1 } ∧
      ({ q1 with
        buf := q1.buf.set q1.tail (some x)
        tail := (q1.tail + 1) % (q1.buf.set q1.tail (some x)).length
        count := q1.count + 1 } : Queue α).toList = q1.toList ++ [some x] := by
  constructor
  · constructor
    · simpa only [List.length_set] using hpow
    · simpa only [List.length_set] using hlt
    · simpa only [List.length_set] using hh
    · show (q1.tail + 1) % (q1.buf.set q1.tail (some x)).length
        = (q1.head + (q1.count + 1)) % (q1.buf.set q1.tail (some x)).length
      simp only [List.length_set]
      rw [ht, Nat.mod_add_mod, Nat.add_assoc]
  · show (((q1.buf.set q1.tail (some x)).rotate q1.head)).take (q1.count + 1)
      = q1.toList ++ [some x]
    rw [ht]
    exact set_push_toList q1.buf q1.head q1.count x hh hlt

theorem Add_full {q : Queue α} (x : α) (hfull : q.max_len ≤ (q.count : Int)) :
    q.Add x = q := by
  unfold Queue.Add
  rw [if_pos hfull]

theorem Add_spec {q : Queue α} (h : Inv q) (x : α)
    (hcap : (q.count : Int) < q.max_len) :
    Inv (q.Add x) ∧ (q.Add x).max_len = q.max_len ∧
      (q.Add x).count = q.count + 1 ∧ (q.Add x).toList = q.toList ++ [some x] := by
  have hne : ¬ q.max_len ≤ (q.count : Int) := not_le.mpr hcap
  by_cases hgrow : q.count = q.buf.length
  · have hc0 : 0 < q.count := by rw [hgrow]; exact h.hlen_pos
    have hlen1 := resize_buf_length h hc0
    have hpow1 : ∃ k, (q.resize).buf.length = minQueueLen * 2 ^ k := by
      obtain ⟨k, hk⟩ := h.hpow
      exact ⟨k + 1, by rw [hlen1, hgrow, hk, Nat.pow_succ]; ring⟩
    have hh1 : (q.resize).head < (q.resize).buf.length := by
      rw [resize_head, hlen1]; omega
    have hlt1 : (q.resize).count < (q.resize).buf.length := by
      rw [resize_count, hlen1]; omega
    have ht1 : (q.resize).tail
        = ((q.resize).head + (q.resize).count) % (q.resize).buf.length := by
      rw [resize_head, resize_tail, resize_count, hlen1, Nat.zero_add,
        Nat.mod_eq_of_lt (by omega)]
    obtain ⟨hinv, htl⟩ := insert_spec x hpow1 hh1 hlt1 ht1
    rw [Add_eq q x hne, if_pos hgrow]
    exact ⟨hinv, resize_max_len q, by simp only [resize_count], by
      rw [htl, resize_toList h hc0]⟩
  · have hlt1 : q.count < q.buf.length := lt_of_le_of_ne h.hcount hgrow
    obtain ⟨hinv, htl⟩ := insert_spec x h.hpow h.hhead hlt1 h.htail
    rw [Add_eq q x hne, if_neg hgrow]
    exact ⟨hinv, rfl, rfl, htl⟩

theorem Remove_empty {q : Queue α} (h0 : q.count = 0) :
    q.Remove = .error .emptyQueue := by
  unfold Queue.Remove
  rw [if_pos (by omega)]

theorem Remove_eq (q : Queue α) (hc : ¬ q.count ≤ 0) :
    q.Remove =
      if minQueueLen < (q.buf.set q.head none).length ∧
          (q.count - 1) * 4 = (q.buf.set q.head none).length then
        Except.ok ({ q with
          buf := q.buf.set q.head none
          head := (q.head + 1) % (q.buf.set q.head none).length
          count := q.count - 1 } : Queue α).resize
      else
        Except.ok { q with
          buf := q.buf.set q.head none
          head := (q.head + 1) % (q.buf.set q.head none).length
          count := q.count - 1 } := by
  unfold Queue.Remove
  rw [if_neg hc]

theorem pop_spec {q : Queue α} (h : Inv q) (hc0 : 0 < q.count) :
    Inv { q with
        buf := q.buf.set q.head none
        head := (q.head + 1) % (q.buf.set q.head none).length
        count := q.count - 1 } ∧
      ({ q with
        buf := q.buf.set q.head none
        head := (q.head + 1) % (q.buf.set q.head none).length
        count := q.count - 1 } : Queue α).toList = q.toList.drop 1 := by
  constructor
  · constructor
    · simpa only [List.length_set] using h.hpow
    · simp only [List.length_set]
      have := h.hcount
      omega
    · simp only [List.length_set]
      exact Nat.mod_lt _ h.hlen_pos
    · show q.tail = ((q.head + 1) % (q.buf.set q.head none).length + (q.count - 1))
        % (q.buf.set q.head none).length
      simp only [List.length_set]
      rw [Nat.mod_add_mod, h.htail]
      congr 1
      omega
  · show ((q.buf.set q.head none).rotate
        ((q.head + 1) % (q.buf.set q.head none).length)).take (q.count - 1)
      = q.toList.drop 1
    simp only [List.length_set]
    exact set_pop_toList q.buf q.head q.count h.hhead h.hcount hc0

theorem resize_Inv {q : Queue α} (h : Inv q) (hc : 0 < q.count)
    (hpow : ∃ k, q.count * 2 = minQueueLen * 2 ^ k) : Inv q.resize := by
  have hlen := resize_buf_length h hc
  constructor
  · rw [hlen]; exact hpow
  · rw [resize_count, hlen]; omega
  · rw [resize_head, hlen]; omega
  · rw [resize_head, resize_tail, resize_count, hlen, Nat.zero_add,
      Nat.mod_eq_of_lt (by omega)]

theorem Remove_spec {q : Queue α} (h : Inv q) (hc0 : 0 < q.count) :
    ∃ q2, q.Remove = .ok q2 ∧ Inv q2 ∧ q2.max_len = q.max_len ∧
      q2.count = q.count - 1 ∧ q2.toList = q.toList.drop 1 := by
  have hc : ¬ q.count ≤ 0 := by omega
  obtain ⟨hinv1, htl1⟩ := pop_spec h hc0
  rw [Remove_eq q hc]
  by_cases hshrink : minQueueLen < (q.buf.set q.head none).length ∧
      (q.count - 1) * 4 = (q.buf.set q.head none).length
  · rw [if_pos hshrink]
    have h16 : minQueueLen = 16 := rfl
    have hlenset : (q.buf.set q.head none).length = q.buf.length := List.length_set ..
    have hc1 : 0 < q.count - 1 := by
      rcases hshrink with ⟨hs1, hs2⟩
      omega
    refine ⟨_, rfl, ?_, ?_, ?_, ?_⟩
    · apply resize_Inv hinv1 hc1
      obtain ⟨k, hk⟩ := hinv1.hpow
      simp only [List.length_set] at hk
      rcases k with _ | m
      · exfalso
        rcases hshrink with ⟨hs1, hs2⟩
        rw [hlenset] at hs1
        rw [hk] at hs1
        simp [h16] at hs1
      · refine ⟨m, ?_⟩
        rcases hshrink with ⟨hs1, hs2⟩
        rw [hlenset] at hs2
        rw [hk] at hs2
        show (q.count - 1) * 2 = minQueueLen * 2 ^ m
        rw [Nat.pow_succ, h16] at hs2
        rw [h16]
        omega
    · rw [resize_max_len]
    · rw [resize_count]
    · rw [resize_toList hinv1 hc1, htl1]
  · rw [if_neg hshrink]
    exact ⟨_, rfl, hinv1, rfl, rfl, htl1⟩

theorem Peek_empty {q : Queue α} (h0 : q.count = 0) :
    q.Peek = .error .emptyQueue := by
  unfold Queue.Peek
  rw [if_pos (by omega)]

theorem Peek_ok {q : Queue α} (h : Inv q) (hc0 : 0 < q.count) :
    q.Peek = .ok (q.toList.getD 0 none) := by
  unfold Queue.Peek
  rw [if_neg (by omega)]
  congr 1
  rw [toList_getD h 0 hc0, Nat.add_zero, Nat.mod_eq_of_lt h.hhead]

theorem peekAndRemove_eq (q : Queue α) :
    q.PeekAndRemove = q.Peek.bind fun v => q.Remove.map fun q2 => (v, q2) := by
  unfold Queue.PeekAndRemove Queue.Peek Queue.Remove
  by_cases hc : q.count ≤ 0
  · rw [if_pos hc, if_pos hc]
    rfl
  · rw [if_neg hc, if_neg hc, if_neg hc]
    simp only [Except.bind, Except.map]
    split <;> rfl

theorem PeekAndRemove_spec {q : Queue α} (h : Inv q) (hc0 : 0 < q.count) :
    ∃ q2, q.PeekAndRemove = .ok (q.toList.getD 0 none, q2) ∧ Inv q2 ∧
      q2.max_len = q.max_len ∧ q2.count = q.count - 1 ∧
      q2.toList = q.toList.drop 1 := by
  obtain ⟨q2, he, hinv, hmax, hcnt, htl⟩ := Remove_spec h hc0
  refine ⟨q2, ?_, hinv, hmax, hcnt, htl⟩
  rw [peekAndRemove_eq, Peek_ok h hc0, he]
  rfl

theorem PeekAndRemove_empty {q : Queue α} (h0 : q.count = 0) :
    q.PeekAndRemove = .error .emptyQueue := by
  rw [peekAndRemove_eq, Peek_empty h0]
  rfl

theorem toList_nil {q : Queue α} (h : Inv q) (h0 : q.count = 0) :
    q.toList = [] := by
  have hl := toList_length h
  rw [h0] at hl
  exact List.length_eq_zero.mp hl

theorem step_spec {q : Queue α} (h : Inv q) (op : Op α) :
    Inv (q.step op) ∧ (q.step op).max_len = q.max_len ∧
      (q.step op).toList = absStep q.max_len q.toList op := by
  cases op with
  | add x =>
    by_cases hcap : q.max_len ≤ (q.count : Int)
    · rw [show q.step (Op.add x) = q.Add x from rfl, Add_full x hcap]
      refine ⟨h, rfl, ?_⟩
      show q.toList
        = if q.max_len ≤ (q.toList.length : Int) then q.toList
          else q.toList ++ [some x]
      rw [toList_length h, if_pos hcap]
    · obtain ⟨h1, h2, _, h4⟩ := Add_spec h x (not_le.mp hcap)
      refine ⟨h1, h2, ?_⟩
      show (q.Add x).toList
        = if q.max_len ≤ (q.toList.length : Int) then q.toList
          else q.toList ++ [some x]
      rw [toList_length h, if_neg hcap, h4]
  | remove =>
    by_cases hc0 : q.count = 0
    · have hstep : q.step Op.remove = q := by
        show (match q.Remove with | .ok q1 => q1 | .error _ => q) = q
        rw [Remove_empty hc0]
      rw [hstep]
      refine ⟨h, rfl, ?_⟩
      show q.toList = q.toList.drop 1
      rw [toList_nil h hc0]
      rfl
    · obtain ⟨q2, he, hinv, hmax, _, htl⟩ := Remove_spec h (by omega)
      have hstep : q.step Op.remove = q2 := by
        show (match q.Remove with | .ok q1 => q1 | .error _ => q) = q2
        rw [he]
      rw [hstep]
      exact ⟨hinv, hmax, htl⟩
  | peekAndRemove =>
    by_cases hc0 : q.count = 0
    · have hstep : q.step Op.peekAndRemove = q := by
        show (match q.PeekAndRemove with | .ok (_, q1) => q1 | .error _ => q) = q
        rw [PeekAndRemove_empty hc0]
      rw [hstep]
      refine ⟨h, rfl, ?_⟩
      show q.toList = q.toList.drop 1
      rw [toList_nil h hc0]
      rfl
    · obtain ⟨q2, he, hinv, hmax, _, htl⟩ := PeekAndRemove_spec h (by omega)
      have hstep : q.step Op.peekAndRemove = q2 := by
        show (match q.PeekAndRemove with | .ok (_, q1) => q1 | .error _ => q) = q2
        rw [he]
      rw [hstep]
      exact ⟨hinv, hmax, htl⟩

theorem run_spec {q : Queue α} (h : Inv q) (ops : List (Op α)) :
    Inv (q.run ops) ∧ (q.run ops).max_len = q.max_len ∧
      (q.run ops).toList = absRun q.max_len q.toList ops := by
  induction ops generalizing q with
  | nil => exact ⟨h, rfl, rfl⟩
  | cons op ops ih =>
    obtain ⟨h1, h2, h3⟩ := step_spec h op
    obtain ⟨g1, g2, g3⟩ := ih h1
    have hmax : ((q.step op).run ops).max_len = q.max_len := by rw [g2, h2]
    refine ⟨g1, hmax, ?_⟩
    show ((q.step op).run ops).toList = absRun q.max_len (absStep q.max_len q.toList op) ops
    rw [g3, h2, h3]

theorem New_Inv (α : Type) (n : Int) : Inv (New α n) := by
  constructor
  · exact ⟨0, by simp [New, minQueueLen]⟩
  · simp [New]
  · simp [New, minQueueLen]
  · simp [New]

theorem New_toList (α : Type) (n : Int) : (New α n).toList = [] := rfl

theorem New_max_len (α : Type) (n : Int) : (New α n).max_len = n := rfl

theorem absRun_length_le {m : Int} (l : List (Option α)) (ops : List (Op α))
    (hl : (l.length : Int) ≤ max m 0) :
    ((absRun m l ops).length : Int) ≤ max m 0 := by
  induction ops generalizing l with
  | nil => exact hl
  | cons op ops ih =>
    apply ih
    cases op with
    | add x =>
      show ((if m ≤ (l.length : Int) then l else l ++ [some x]).length : Int) ≤ max m 0
      by_cases hc : m ≤ (l.length : Int)
      · rw [if_pos hc]; exact hl
      · rw [if_neg hc]
        simp only [List.length_append, List.length_cons, List.length_nil]
        push_cast
        omega
    | remove =>
      show (((l.drop 1).length : Int)) ≤ max m 0
      simp only [List.length_drop]
      omega
    | peekAndRemove =>
      show (((l.drop 1).length : Int)) ≤ max m 0
      simp only [List.length_drop]
      omega

theorem absRun_nonpos {m : Int} (hm : m ≤ 0) (ops : List (Op α)) :
    absRun m ([] : List (Option α)) ops = [] := by
  induction ops with
  | nil => rfl
  | cons op ops ih =>
    cases op with
    | add x =>
      show absRun m (if m ≤ ((List.length [] : Nat) : Int) then [] else [] ++ [some x]) ops = []
      rw [if_pos (by simpa using hm)]
      exact ih
    | remove => exact ih
    | peekAndRemove => exact ih

theorem Remove_isOk {q : Queue α} (hc : ¬ q.count ≤ 0) :
    ∃ q2, q.Remove = .ok q2 := by
  rw [Remove_eq q hc]
  split
  · exact ⟨_, rfl⟩
  · exact ⟨_, rfl⟩

theorem PeekAndRemove_isOk {q : Queue α} (hc : ¬ q.count ≤ 0) :
    ∃ v q2, q.PeekAndRemove = .ok (v, q2) := by
  obtain ⟨q2, h2⟩ := Remove_isOk hc
  refine ⟨q.buf.getD q.head none, q2, ?_⟩
  have hp : q.Peek = .ok (q.buf.getD q.head none) := by
    unfold Queue.Peek
    rw [if_neg hc]
  rw [peekAndRemove_eq, hp, h2]
  rfl

/-- Claim C1: FIFO law — after any sequence of Adds interleaved with
removals from a fresh queue, the still-held elements are exactly the
not-yet-removed ones in insertion order (simulation with the abstract
bounded-FIFO-list model `absRun`), and the element returned by
`PeekAndRemove` (the head observed before each removal) is the oldest
still-held element. -/
theorem C1_fifo_law (n : Int) (ops : List (Op α)) :
    ((New α n).run ops).toList = absRun n [] ops ∧
    (0 < ((New α n).run ops).count →
      ∃ q2, ((New α n).run ops).PeekAndRemove
          = Except.ok (((New α n).run ops).toList.getD 0 none, q2) ∧
        q2.toList = ((New α n).run ops).toList.drop 1) := by
  obtain ⟨hinv, hmax, htl⟩ := run_spec (New_Inv α n) ops
  constructor
  · rw [htl, New_max_len, New_toList]
  · intro hc
    obtain ⟨q2, he, _, _, _, htl2⟩ := PeekAndRemove_spec hinv hc
    exact ⟨q2, he, htl2⟩

/-- Witness for C1 at a concrete input. -/
theorem C1_fifo_law_witness :
    ∃ q2, ((New Int 5).run [Op.add 7, Op.add 8]).PeekAndRemove
        = Except.ok (((New Int 5).run [Op.add 7, Op.add 8]).toList.getD 0 none, q2) ∧
      q2.toList = ((New Int 5).run [Op.add 7, Op.add 8]).toList.drop 1 :=
  (C1_fifo_law 5 [Op.add 7, Op.add 8]).2 (by decide)

/-- Claim C2 as frozen fails on the code: for a queue constructed with
`capacityLimit = -1`, `Length()` is already greater than the limit at the
very first observation point. -/
theorem C2_capacity_counterexample :
    ¬ (((New Int (-1)).Length : Int) ≤ (New Int (-1)).max_len) := by
  decide

/-- Claim C2 (amended): `Length() ≤ max(capacityLimit, 0)` at every
observation point — hence `Length() ≤ capacityLimit` whenever
`capacityLimit ≥ 0`; an Add issued while `count ≥ capacityLimit` is a no-op
leaving the queue unchanged; and with `capacityLimit ≤ 0` every Add is
rejected and the queue stays empty. -/
theorem C2_capacity_law (n : Int) (ops : List (Op α)) (x : α) :
    ((((New α n).run ops).Length : Int) ≤ max n 0) ∧
    (0 ≤ n → ((((New α n).run ops).Length : Int) ≤ n)) ∧
    (n ≤ (((New α n).run ops).count : Int) →
      ((New α n).run ops).Add x = (New α n).run ops) ∧
    (n ≤ 0 → ((New α n).run ops).toList = [] ∧ ((New α n).run ops).Length = 0) := by
  obtain ⟨hinv, hmax, htl⟩ := run_spec (New_Inv α n) ops
  have hlen : ((((New α n).run ops).Length : Nat) : Int) ≤ max n 0 := by
    show ((((New α n).run ops).count : Nat) : Int) ≤ max n 0
    rw [← toList_length hinv, htl, New_max_len, New_toList]
    exact absRun_length_le [] ops (by simp)
  refine ⟨hlen, fun h0 => by omega, ?_, ?_⟩
  · intro hfull
    exact Add_full x (by rw [hmax, New_max_len]; exact hfull)
  · intro hn
    have h1 : ((New α n).run ops).toList = [] := by
      rw [htl, New_max_len, New_toList]
      exact absRun_nonpos hn ops
    refine ⟨h1, ?_⟩
    show ((New α n).run ops).count = 0
    rw [← toList_length hinv, h1]
    rfl

/-- Witness for the amended C2 at concrete inputs. -/
theorem C2_capacity_law_witness :
    (((New Int 2).run [Op.add 4, Op.add 5]).Length : Int) ≤ 2 ∧
    ((New Int 2).run [Op.add 4, Op.add 5]).Add 9
      = (New Int 2).run [Op.add 4, Op.add 5] ∧
    ((New Int (-2)).run [Op.add 4]).toList = [] ∧
    ((New Int (-2)).run [Op.add 4]).Length = 0 :=
  ⟨(C2_capacity_law 2 [Op.add 4, Op.add 5] 9).2.1 (by decide),
   (C2_capacity_law 2 [Op.add 4, Op.add 5] 9).2.2.1 (by decide),
   ((C2_capacity_law (-2) [Op.add 4] 9).2.2.2 (by decide)).1,
   ((C2_capacity_law (-2) [Op.add 4] 9).2.2.2 (by decide)).2⟩

/-- Claim C3: `Get(i)` fails with IndexOutOfRange iff `i < 0` or
`i ≥ count`; otherwise it returns `buf[(head+i) mod len(buf)]`, which is
the `i`-th still-held element in insertion order, and it does not modify
the queue. -/
theorem C3_get_spec (q : Queue α) (h : Inv q) (i : Int) :
    (q.Get i = .error .indexOutOfRange ↔ (i < 0 ∨ (q.count : Int) ≤ i)) ∧
    (0 ≤ i → i < (q.count : Int) →
      q.Get i = .ok (q.buf.getD ((q.head + i.toNat) % q.buf.length) none) ∧
      q.Get i = .ok (q.toList.getD i.toNat none)) ∧
    (q.GetS i).2 = q := by
  refine ⟨⟨?_, ?_⟩, ?_, ?_⟩
  · intro he
    by_contra hnot
    unfold Queue.Get at he
    rw [if_neg hnot] at he
    exact Except.noConfusion he
  · intro hcond
    unfold Queue.Get
    rw [if_pos hcond]
  · intro h0 hlt
    have hcond : ¬ (i < 0 ∨ (q.count : Int) ≤ i) := by omega
    constructor
    · unfold Queue.Get
      rw [if_neg hcond]
    · unfold Queue.Get
      rw [if_neg hcond]
      congr 1
      rw [toList_getD h i.toNat (by omega)]
  · unfold Queue.GetS
    split <;> rfl

/-- Witness for C3 at a concrete queue and indices. -/
theorem C3_get_spec_witness :
    (((New Int 4).Add 3).Add 6).Get 1
        = Except.ok ((((New Int 4).Add 3).Add 6).toList.getD (1 : Int).toNat none) ∧
    (((New Int 4).Add 3).Add 6).Get (-1) = Except.error QErr.indexOutOfRange :=
  ⟨((C3_get_spec (((New Int 4).Add 3).Add 6)
        ⟨⟨0, by decide⟩, by decide, by decide, by decide⟩ 1).2.1
      (by decide) (by decide)).2,
   (C3_get_spec (((New Int 4).Add 3).Add 6)
        ⟨⟨0, by decide⟩, by decide, by decide, by decide⟩ (-1)).1.mpr
      (Or.inl (by decide))⟩

/-- Claim C4: `Peek`, `Remove` and `PeekAndRemove` fail with the EmptyQueue
condition exactly when `count = 0`, and a failing call leaves the state
unchanged. -/
theorem C4_empty_errors (q : Queue α) :
    (q.Peek = .error .emptyQueue ↔ q.count = 0) ∧
    (q.Remove = .error .emptyQueue ↔ q.count = 0) ∧
    (q.PeekAndRemove = .error .emptyQueue ↔ q.count = 0) ∧
    (q.count = 0 → q.step .remove = q ∧ q.step .peekAndRemove = q) := by
  by_cases h0 : q.count = 0
  · refine ⟨?_, ?_, ?_, ?_⟩
    · simp [Peek_empty h0, h0]
    · simp [Remove_empty h0, h0]
    · simp [PeekAndRemove_empty h0, h0]
    · intro _
      constructor
      · show (match q.Remove with | .ok q1 => q1 | .error _ => q) = q
        rw [Remove_empty h0]
      · show (match q.PeekAndRemove with | .ok (_, q1) => q1 | .error _ => q) = q
        rw [PeekAndRemove_empty h0]
  · have hc : ¬ q.count ≤ 0 := by omega
    refine ⟨?_, ?_, ?_, fun h0c => absurd h0c h0⟩
    · unfold Queue.Peek
      rw [if_neg hc]
      simp [h0]
    · constructor
      · intro he
        obtain ⟨q2, h2⟩ := Remove_isOk hc
        rw [h2] at he
        exact Except.noConfusion he
      · intro h0c
        exact absurd h0c h0
    · constructor
      · intro he
        obtain ⟨v, q2, h2⟩ := PeekAndRemove_isOk hc
        rw [h2] at he
        exact Except.noConfusion he
      · intro h0c
        exact absurd h0c h0

/-- Witness for C4 at a concrete empty queue. -/
theorem C4_empty_errors_witness :
    (New Int 7).Peek = Except.error QErr.emptyQueue ∧
    (New Int 7).step Op.remove = New Int 7 :=
  ⟨(C4_empty_errors (New Int 7)).1.mpr (by decide),
   ((C4_empty_errors (New Int 7)).2.2.2 (by decide)).1⟩

/-- Claim C5: resize correctness — across any Add/Remove sequence crossing
grow and shrink thresholds no element is lost, duplicated or reordered
(simulation with `absRun`), the buffer length never drops below
`minQueueLen`, and immediately after any grow or shrink `head = 0` and
`tail = count`, with the buffer re-linearized to `count * 2` slots. -/
theorem C5_resize_correct (n : Int) (ops : List (Op α)) (q : Queue α)
    (h : Inv q) (hc : 0 < q.count) :
    minQueueLen ≤ ((New α n).run ops).buf.length ∧
    ((New α n).run ops).toList = absRun n [] ops ∧
    q.resize.head = 0 ∧ q.resize.tail = q.resize.count ∧
    q.resize.buf.length = q.count * 2 ∧ q.resize.toList = q.toList := by
  obtain ⟨hinv, hmax, htl⟩ := run_spec (New_Inv α n) ops
  exact ⟨hinv.hlen, by rw [htl, New_max_len, New_toList], rfl, rfl,
    resize_buf_length h hc, resize_toList h hc⟩

/-- Witness for C5 at concrete inputs. -/
theorem C5_resize_correct_witness :
    minQueueLen ≤ ((New Int 1).run [Op.add 2]).buf.length ∧
    ((New Int 5).Add 1).resize.toList = ((New Int 5).Add 1).toList :=
  ⟨(C5_resize_correct 1 [Op.add 2] ((New Int 5).Add 1)
      ⟨⟨0, by decide⟩, by decide, by decide, by decide⟩ (by decide)).1,
   (C5_resize_correct 1 [Op.add 2] ((New Int 5).Add 1)
      ⟨⟨0, by decide⟩, by decide, by decide, by decide⟩ (by decide)).2.2.2.2.2⟩

/-- Claim C6: the concrete scenario — from `New 3`, after
`Add 1; Add 2; Add 3; Add 4` the queue holds 1,2,3 (4 was dropped, the
fourth Add being a no-op), and after a `Remove` it holds 2,3. -/
theorem C6_concrete_scenario :
    ((((New Int 3).Add 1).Add 2).Add 3).Add 4 = (((New Int 3).Add 1).Add 2).Add 3 ∧
    (((((New Int 3).Add 1).Add 2).Add 3).Add 4).Length = 3 ∧
    (((((New Int 3).Add 1).Add 2).Add 3).Add 4).Get 0 = .ok (some 1) ∧
    (((((New Int 3).Add 1).Add 2).Add 3).Add 4).Get 1 = .ok (some 2) ∧
    (((((New Int 3).Add 1).Add 2).Add 3).Add 4).Get 2 = .ok (some 3) ∧
    ((((((New Int 3).Add 1).Add 2).Add 3).Add 4).step Op.remove).Length = 2 ∧
    ((((((New Int 3).Add 1).Add 2).Add 3).Add 4).step Op.remove).Get 0
      = .ok (some 2) :=
  ⟨rfl, rfl, rfl, rfl, rfl, rfl, rfl⟩

/-- Claim C7: `PeekAndRemove` is the sequential composition of `Peek`
followed by `Remove`: it fails exactly when `Peek` fails, and otherwise
returns `Peek`'s element paired with exactly the state `Remove` (including
its shrink step) produces. -/
theorem C7_peekAndRemove_refinement (q : Queue α) :
    q.PeekAndRemove = q.Peek.bind fun v => q.Remove.map fun q2 => (v, q2) :=
  peekAndRemove_eq q

/-- Claim C8 as frozen fails on the code: it quantifies over every queue
state, but after `Add(2)` on a queue already holding 1, `Peek` returns 1,
not the just-added 2 (FIFO order). -/
theorem C8_round_trip_counterexample :
    ¬ ((((New Int 10).Add 1).Add 2).Peek = Except.ok (some 2)) := by
  rw [show (((New Int 10).Add 1).Add 2).Peek = Except.ok (some 1) from rfl]
  simp

/-- Claim C8 (amended): for every reachable queue state that is empty and
has spare capacity, after `Add(x)` both `Peek` and `PeekAndRemove` return
`x`, and `Length` decreases by exactly 1 across the removal. -/
theorem C8_round_trip (q : Queue α) (x : α) (h : Inv q) (h0 : q.count = 0)
    (hcap : 0 < q.max_len) :
    (q.Add x).Peek = .ok (some x) ∧
    (∃ q2, (q.Add x).PeekAndRemove = .ok (some x, q2) ∧
      q2.Length + 1 = (q.Add x).Length) := by
  have hcap2 : (q.count : Int) < q.max_len := by
    rw [h0]
    simpa using hcap
  obtain ⟨hinv1, hmax1, hcnt1, htl1⟩ := Add_spec h x hcap2
  have hlst : (q.Add x).toList = [some x] := by
    rw [htl1, toList_nil h h0]
    rfl
  have hcpos : 0 < (q.Add x).count := by omega
  constructor
  · rw [Peek_ok hinv1 hcpos, hlst]
    rfl
  · obtain ⟨q2, he, _, _, hcnt2, _⟩ := PeekAndRemove_spec hinv1 hcpos
    refine ⟨q2, ?_, ?_⟩
    · rw [he, hlst]
      rfl
    · show q2.count + 1 = (q.Add x).count
      omega

/-- Witness for the amended C8 at a concrete input. -/
theorem C8_round_trip_witness :
    ((New Int 3).Add 9).Peek = Except.ok (some 9) :=
  (C8_round_trip (New Int 3) 9 ⟨⟨0, by decide⟩, by decide, by decide, by decide⟩
    (by decide) (by decide)).1

/-- Claim C10: the observers `Length`, `Peek` and `Get` leave every field of
the queue state unchanged (their Go bodies, state-threaded here as
`LengthS`/`PeekS`/`GetS`, write no field and return the queried value). -/
theorem C10_observers_pure (q : Queue α) (i : Int) :
    q.LengthS = (q.Length, q) ∧ q.PeekS = (q.Peek, q) ∧ q.GetS i = (q.Get i, q) ∧
    (q.PeekS).2.buf = q.buf ∧ (q.PeekS).2.head = q.head ∧
    (q.PeekS).2.tail = q.tail ∧ (q.PeekS).2.count = q.count ∧
    (q.PeekS).2.max_len = q.max_len ∧
    (q.GetS i).2 = q ∧ (q.LengthS).2 = q := by
  have hp : q.PeekS = (q.Peek, q) := by
    unfold Queue.PeekS Queue.Peek
    split <;> rfl
  have hg : q.GetS i = (q.Get i, q) := by
    unfold Queue.GetS Queue.Get
    split <;> rfl
  exact ⟨rfl, hp, hg, by rw [hp], by rw [hp], by rw [hp], by rw [hp], by rw [hp],
    by rw [hg], rfl⟩

end GoQueue
